import Mathlib

/-!
Verification of the Availability Store subsystem (`node/core/av-store/src/lib.rs`).

The Rust source is shallowly embedded: the key-value store is a record of the
values living under the subsystem's fixed keys, a `DBTransaction` is a list of
put/delete operations, and `db.write(tx)` commits one such batch.  Every
operation of the subsystem is a pure function from a state (plus an explicit
clock value, modelling `SystemTime::now()`) to a new state together with the
list of batches it committed, in commit order.  Machine integers (`u32`,
`BlockNumber`, `Duration`) are modelled as `Nat`; none of the embedded code
relies on wrap-around.  Rust panics are modelled by `Option`/sum results.
-/

namespace AvStore

/-- Model of `CandidateHash` (a 32-byte hash, SCALE-encoding to its 32 raw
bytes). -/
def CandidateHash : Type := { l : List Nat // l.length = 32 }

instance : DecidableEq CandidateHash := fun a b =>
  decidable_of_iff (a.val = b.val) Subtype.val_inj

/-- Model of the `PruningDelay` enum: `In(duration since epoch)` or
`Indefinite`. -/
inductive PruningDelay
  | In (d : Nat)
  | Indefinite
deriving DecidableEq, Repr

/-- Model of `Ord for PruningDelay`: `In` values compare by the wrapped
duration, every `In` is less than `Indefinite`. -/
def cmpDelay : PruningDelay → PruningDelay → Ordering
  | .In a, .In b => if a < b then .lt else if b < a then .gt else .eq
  | .In _, .Indefinite => .lt
  | .Indefinite, .In _ => .gt
  | .Indefinite, .Indefinite => .eq

/-- Model of `PruningDelay::le` (`<=` via `Ord`): `cmp ≠ Greater`. -/
def delayLeB (a b : PruningDelay) : Bool :=
  match cmpDelay a b with
  | .gt => false
  | _ => true

/-- Model of `PruningDelay::as_duration`. -/
def PruningDelay.as_duration : PruningDelay → Option Nat
  | .In d => some d
  | .Indefinite => none

/-- Model of the `CandidateState` enum. -/
inductive CandidateState
  | Stored
  | Included
  | Finalized
deriving DecidableEq, Repr

/-- Model of `PoVPruningRecord`. -/
structure PoVPruningRecord where
  candidate_hash : CandidateHash
  block_number : Nat
  candidate_state : CandidateState
  prune_at : PruningDelay
deriving DecidableEq

/-- Model of `ChunkPruningRecord`. -/
structure ChunkPruningRecord where
  candidate_hash : CandidateHash
  block_number : Nat
  candidate_state : CandidateState
  chunk_index : Nat
  prune_at : PruningDelay
deriving DecidableEq

/-- Model of `Ord for PoVPruningRecord`: records with equal `candidate_hash`
compare `Equal`; otherwise they compare by `prune_at`. -/
def cmpPoVRecord (a b : PoVPruningRecord) : Ordering :=
  if a.candidate_hash = b.candidate_hash then .eq
  else cmpDelay a.prune_at b.prune_at

/-- Model of `Ord for ChunkPruningRecord`: as in the source the shortcut
compares only `candidate_hash` (not `chunk_index`); otherwise `prune_at`. -/
def cmpChunkRecord (a b : ChunkPruningRecord) : Ordering :=
  if a.candidate_hash = b.candidate_hash then .eq
  else cmpDelay a.prune_at b.prune_at

/-- SCALE encoding of a `u32` (4 little-endian bytes). -/
def encode_u32 (i : Nat) : List Nat :=
  [i % 256, i / 256 % 256, i / 65536 % 256, i / 16777216 % 256]

/-- Model of `available_data_key`: `(candidate_hash, 0i8).encode()`, i.e. the
32 hash bytes followed by the single byte `0`. -/
def available_data_key (candidate_hash : CandidateHash) : List Nat :=
  candidate_hash.val ++ [0]

/-- Model of `erasure_chunk_key`: `(candidate_hash, index, 0i8).encode()`, i.e.
the 32 hash bytes, the 4 little-endian bytes of `index`, then the byte `0`. -/
def erasure_chunk_key (candidate_hash : CandidateHash) (index : Nat) : List Nat :=
  candidate_hash.val ++ encode_u32 index ++ [0]

/-- Model of `PersistedValidationData` (only `block_number` is read by this
subsystem). -/
structure PersistedValidationData where
  block_number : Nat
deriving DecidableEq

/-- Model of `AvailableData`: an opaque PoV blob plus validation data. -/
structure AvailableData where
  pov : List Nat
  validation_data : PersistedValidationData
deriving DecidableEq

/-- Model of `ErasureChunk`. -/
structure ErasureChunk where
  chunk : List Nat
  proof : List (List Nat)
  index : Nat
deriving DecidableEq

/-- Model of `StoredAvailableData`. -/
structure StoredAvailableData where
  data : AvailableData
  n_validators : Nat
deriving DecidableEq

/-- Typed view of a value stored in the `DATA` column (either an encoded
`StoredAvailableData` or an encoded `ErasureChunk`). -/
inductive StoredValue
  | availVal (d : StoredAvailableData)
  | chunkVal (c : ErasureChunk)
deriving DecidableEq

/-- One put/delete of a `DBTransaction`.  The `META` column has four fixed
keys (`pov_pruning`, `chunks_pruning`, `next_pov_pruning`,
`next_chunk_pruning`), so its operations are one constructor per key; `DATA`
column operations carry their encoded byte key. -/
inductive DBOp
  | putData (key : List Nat) (value : StoredValue)
  | delData (key : List Nat)
  | putPovQueue (q : List PoVPruningRecord)
  | putChunkQueue (q : List ChunkPruningRecord)
  | putNextPov (t : Nat)
  | delNextPov
  | putNextChunk (t : Nat)
  | delNextChunk
deriving DecidableEq

/-- Lookup in the association-list model of the `DATA` column. -/
def getAssoc : List (List Nat × StoredValue) → List Nat → Option StoredValue
  | [], _ => none
  | (k, v) :: rest, key => if k = key then some v else getAssoc rest key

/-- Upsert in the association-list model of the `DATA` column. -/
def setAssoc (key : List Nat) (v : StoredValue) :
    List (List Nat × StoredValue) → List (List Nat × StoredValue)
  | [] => [(key, v)]
  | (k, w) :: rest => if k = key then (key, v) :: rest else (k, w) :: setAssoc key v rest

/-- Deletion in the association-list model of the `DATA` column. -/
def delAssoc (key : List Nat) (m : List (List Nat × StoredValue)) :
    List (List Nat × StoredValue) :=
  m.filter (fun kv => decide (kv.1 ≠ key))

/-- State of the two-column KV store, restricted to the keys this subsystem
uses: the whole `DATA` column, plus the four fixed `META` keys. -/
structure AvState where
  dataCol : List (List Nat × StoredValue)
  povQueue : Option (List PoVPruningRecord)
  chunkQueue : Option (List ChunkPruningRecord)
  nextPovPruning : Option Nat
  nextChunkPruning : Option Nat
deriving DecidableEq

/-- Effect of one batch operation on the store. -/
def applyOp (s : AvState) : DBOp → AvState
  | .putData k v => { s with dataCol := setAssoc k v s.dataCol }
  | .delData k => { s with dataCol := delAssoc k s.dataCol }
  | .putPovQueue q => { s with povQueue := some q }
  | .putChunkQueue q => { s with chunkQueue := some q }
  | .putNextPov t => { s with nextPovPruning := some t }
  | .delNextPov => { s with nextPovPruning := none }
  | .putNextChunk t => { s with nextChunkPruning := some t }
  | .delNextChunk => { s with nextChunkPruning := none }

/-- Model of `db.write(tx)`: a batch commits atomically, in operation order. -/
def applyBatch (s : AvState) (ops : List DBOp) : AvState :=
  ops.foldl applyOp s

/-- Model of `PruningConfig` (durations as `Nat`). -/
structure PruningConfig where
  keep_stored_block_for : Nat
  keep_finalized_block_for : Nat
  keep_finalized_chunk_for : Nat
deriving DecidableEq

/-- One insertion step of a stable insertion sort, working on the reversed
already-sorted run: the new element `x` moves left past `p` exactly while
`cmp x p = Less`, as in Rust's stable `slice::sort` insertion step. -/
def sortInsert (cmp : α → α → Ordering) (x : α) : List α → List α
  | [] => [x]
  | p :: rest => if cmp x p = .lt then p :: sortInsert cmp x rest else x :: p :: rest

/-- Model of Rust's stable `Vec::sort` with comparator `cmp` (the source uses
the derived `Ord`).  Rust's stable sort is an insertion-based stable merge
sort; short slices are sorted purely by the insertion step modelled here, and
on any slice it agrees with a stable insertion sort. -/
def slice_sort (cmp : α → α → Ordering) (l : List α) : List α :=
  (l.foldl (fun acc x => sortInsert cmp x acc) []).reverse

/-- Loop of Rust's `slice::binary_search_by` (the pre-1.52 `base`/`size`
implementation, which does not return early on `Equal`).  The `fuel` argument
only makes the recursion structural; it is called with `fuel = l.length`,
which the halving loop never exhausts. -/
def bsLoop (f : α → Ordering) (dflt : α) (l : List α) :
    Nat → Nat → Nat → Nat
  | 0, base, _ => base
  | fuel + 1, base, size =>
    if size ≤ 1 then base
    else
      let half := size / 2
      let mid := base + half
      bsLoop f dflt l fuel (if f (l.getD mid dflt) = .gt then base else mid) (size - half)

/-- Model of `slice::binary_search_by` with probe function `f` (the source
calls `pov_pruning.binary_search(&record)`, i.e. `f probe = cmp probe record`).
`Except.ok i` models `Ok(i)` (found), `Except.error i` models `Err(i)` (the
insertion index). -/
def binary_search (f : α → Ordering) (dflt : α) (l : List α) : Except Nat Nat :=
  if l.length = 0 then .error 0
  else
    let base := bsLoop f dflt l l.length 0 l.length
    match f (l.getD base dflt) with
    | .eq => .ok base
    | .lt => .error (base + 1)
    | .gt => .error base

/-- Model of `Vec::insert(idx, a)` (for `idx ≤ len`, which `binary_search`
guarantees). -/
def insertAt : Nat → α → List α → List α
  | 0, a, l => a :: l
  | _ + 1, a, [] => [a]
  | n + 1, a, x :: l => x :: insertAt n a l

/-- Modelled from the spec: the erasure-coding primitive
`erasure::obtain_chunks_v1` lives outside this repository's sources.  Per the
spec it deterministically derives `n_validators` chunks from the data; the
chunk bytes themselves are opaque to the subsystem and are modelled as an
arbitrary deterministic function of the data and the position. -/
def obtain_chunks_v1 (n_validators : Nat) (data : AvailableData) : List (List Nat) :=
  (List.range n_validators).map (fun i => data.pov ++ [i % 256])

/-- Modelled from the spec: `erasure::branches` (outside this repository's
sources) yields one merkle proof per chunk; the proofs are opaque here. -/
def branchProofs (chunks : List (List Nat)) : List (List (List Nat)) :=
  chunks.map (fun _ => [])

/-- Model of `.enumerate()` on an iterator, starting at `n`. -/
def enumerate : Nat → List α → List (Nat × α)
  | _, [] => []
  | n, a :: rest => (n, a) :: enumerate (n + 1) rest

/-- Model of `get_chunks`: derive all chunks, zip with their proofs, and tag
each chunk with its position as `index`. -/
def get_chunks (data : AvailableData) (n_validators : Nat) : List ErasureChunk :=
  let chunks := obtain_chunks_v1 n_validators data
  let branches := branchProofs chunks
  (enumerate 0 (chunks.zip branches)).map
    (fun ip => { chunk := ip.2.1, proof := ip.2.2, index := ip.1 })

/-- Cache value dictated by the head of a sorted PoV queue, as written by
`put_pov_pruning`: present iff the head exists and has `prune_at = In(t)`. -/
def nextPovCacheOf (q : List PoVPruningRecord) : Option Nat :=
  match q.head? with
  | some r =>
    match r.prune_at with
    | .In t => some t
    | .Indefinite => none
  | none => none

/-- Cache value dictated by the head of a sorted chunk queue, as written by
`put_chunk_pruning`. -/
def nextChunkCacheOf (q : List ChunkPruningRecord) : Option Nat :=
  match q.head? with
  | some r =>
    match r.prune_at with
    | .In t => some t
    | .Indefinite => none
  | none => none

/-- Model of `put_pov_pruning`: sort the queue, append its put plus the
next-wakeup cache update to the transaction, and commit the whole transaction
as one batch. -/
def put_pov_pruning (tx : List DBOp) (s : AvState) (pov_pruning : List PoVPruningRecord) :
    AvState × List DBOp :=
  let q := slice_sort cmpPoVRecord pov_pruning
  let ops := tx ++ [DBOp.putPovQueue q] ++
    (match nextPovCacheOf q with
     | some t => [DBOp.putNextPov t]
     | none => [DBOp.delNextPov])
  (applyBatch s ops, ops)

/-- Model of `put_chunk_pruning`. -/
def put_chunk_pruning (tx : List DBOp) (s : AvState) (chunk_pruning : List ChunkPruningRecord) :
    AvState × List DBOp :=
  let q := slice_sort cmpChunkRecord chunk_pruning
  let ops := tx ++ [DBOp.putChunkQueue q] ++
    (match nextChunkCacheOf q with
     | some t => [DBOp.putNextChunk t]
     | none => [DBOp.delNextChunk])
  (applyBatch s ops, ops)

/-- Model of `store_chunk`.  Returns the new state and the single batch it
committed.  `_n_validators` is accepted and unused, as in the source. -/
def store_chunk (cfg : PruningConfig) (s : AvState) (now : Nat)
    (candidate_hash : CandidateHash) (_n_validators : Nat) (chunk : ErasureChunk)
    (block_number : Nat) : AvState × List DBOp :=
  let dbkey := erasure_chunk_key candidate_hash chunk.index
  let chunk_pruning := s.chunkQueue.getD []
  let prune_at := PruningDelay.In (now + cfg.keep_stored_block_for)
  let tx :=
    match prune_at.as_duration with
    | some delay => [DBOp.putNextChunk delay]
    | none => []
  let pruning_record : ChunkPruningRecord :=
    { candidate_hash := candidate_hash
      block_number := block_number
      candidate_state := .Stored
      chunk_index := chunk.index
      prune_at := prune_at }
  let idx :=
    match binary_search (fun probe => cmpChunkRecord probe pruning_record)
        pruning_record chunk_pruning with
    | .ok i => i
    | .error i => i
  let chunk_pruning := insertAt idx pruning_record chunk_pruning
  let ops := tx ++ [DBOp.putData dbkey (.chunkVal chunk), DBOp.putChunkQueue chunk_pruning]
  (applyBatch s ops, ops)

/-- Model of `store_available_data`.  Returns `none` when the source panics
(indexing the derived chunk vector out of bounds); otherwise the new state and
the committed batches in commit order.  When `id = some index` the source
first calls `store_chunk`, which commits its own batch, and only then commits
the PoV-side transaction. -/
def store_available_data (cfg : PruningConfig) (s : AvState) (now : Nat)
    (candidate_hash : CandidateHash) (id : Option Nat) (n_validators : Nat)
    (available_data : AvailableData) : Option (AvState × List (List DBOp)) :=
  let block_number := available_data.validation_data.block_number
  let step1 : Option (AvState × List (List DBOp)) :=
    match id with
    | some index =>
      let chunks := get_chunks available_data n_validators
      match chunks.get? index with
      | none => none
      | some c =>
        let (s1, b1) := store_chunk cfg s now candidate_hash n_validators c block_number
        some (s1, [b1])
    | none => some (s, [])
  match step1 with
  | none => none
  | some (s1, bs) =>
    let stored_data : StoredAvailableData :=
      { data := available_data, n_validators := n_validators }
    let pov_pruning := s1.povQueue.getD []
    let prune_at := PruningDelay.In (now + cfg.keep_stored_block_for)
    let tx :=
      match prune_at.as_duration with
      | some next_pruning => [DBOp.putNextPov next_pruning]
      | none => []
    let pruning_record : PoVPruningRecord :=
      { candidate_hash := candidate_hash
        block_number := block_number
        candidate_state := .Stored
        prune_at := prune_at }
    let idx :=
      match binary_search (fun probe => cmpPoVRecord probe pruning_record)
          pruning_record pov_pruning with
      | .ok i => i
      | .error i => i
    let pov_pruning := insertAt idx pruning_record pov_pruning
    let ops := tx ++
      [DBOp.putData (available_data_key candidate_hash) (.availVal stored_data),
       DBOp.putPovQueue pov_pruning]
    some (applyBatch s1 ops, bs ++ [ops])

/-- Model of `prune_povs`: count the due records with `take_while`, drain that
prefix adding a `DATA`-column delete per drained record, and hand the
remainder plus the transaction to `put_pov_pruning`, which commits it all as
one batch. -/
def prune_povs (s : AvState) (now : Nat) : AvState × List (List DBOp) :=
  let pov_pruning := s.povQueue.getD []
  let nowD := PruningDelay.In now
  let outdated_records_count :=
    (pov_pruning.takeWhile (fun r => delayLeB r.prune_at nowD)).length
  let tx := (pov_pruning.take outdated_records_count).map
    (fun r => DBOp.delData (available_data_key r.candidate_hash))
  let rest := pov_pruning.drop outdated_records_count
  let (s', ops) := put_pov_pruning tx s rest
  (s', [ops])

/-- Model of `prune_chunks`. -/
def prune_chunks (s : AvState) (now : Nat) : AvState × List (List DBOp) :=
  let chunk_pruning := s.chunkQueue.getD []
  let nowD := PruningDelay.In now
  let outdated_records_count :=
    (chunk_pruning.takeWhile (fun r => delayLeB r.prune_at nowD)).length
  let tx := (chunk_pruning.take outdated_records_count).map
    (fun r => DBOp.delData (erasure_chunk_key r.candidate_hash r.chunk_index))
  let rest := chunk_pruning.drop outdated_records_count
  let (s', ops) := put_chunk_pruning tx s rest
  (s', [ops])

/-- Per-record transition applied by block activation to a PoV record. -/
def activatePovRecord (included : List CandidateHash) (r : PoVPruningRecord) :
    PoVPruningRecord :=
  if r.candidate_hash ∈ included then
    { r with prune_at := .Indefinite, candidate_state := .Included }
  else r

/-- Per-record transition applied by block activation to a chunk record. -/
def activateChunkRecord (included : List CandidateHash) (r : ChunkPruningRecord) :
    ChunkPruningRecord :=
  if r.candidate_hash ∈ included then
    { r with prune_at := .Indefinite, candidate_state := .Included }
  else r

/-- Model of the state transition of `process_block_activated`, given the set
`included` of candidate hashes reported `CandidateIncluded` at the activated
block (fetching candidate events is an external call and is a parameter
here).  Each queue, when present, is updated record-wise, re-sorted, and
persisted through its `put_*_pruning` helper. -/
def process_block_activated (s : AvState) (included : List CandidateHash) :
    AvState × List (List DBOp) :=
  let (s1, bs1) :=
    match s.povQueue with
    | some q =>
      let q := q.map (activatePovRecord included)
      let q := slice_sort cmpPoVRecord q
      let (s', ops) := put_pov_pruning [] s q
      (s', [ops])
    | none => (s, [])
  match s1.chunkQueue with
  | some q =>
    let q := q.map (activateChunkRecord included)
    let q := slice_sort cmpChunkRecord q
    let (s', ops) := put_chunk_pruning [] s1 q
    (s', bs1 ++ [ops])
  | none => (s1, bs1)

/-- Loop of `get_chunk`'s regeneration path: `for chunk in chunks.drain(..) {
store_chunk(...)? }`, each call committing its own batch. -/
def store_chunks_loop (cfg : PruningConfig) (now : Nat) (candidate_hash : CandidateHash)
    (n_validators : Nat) (block_number : Nat) :
    List ErasureChunk → AvState → AvState × List (List DBOp)
  | [], s => (s, [])
  | c :: rest, s =>
    let (s1, b) := store_chunk cfg s now candidate_hash n_validators c block_number
    let (s2, bs) := store_chunks_loop cfg now candidate_hash n_validators block_number rest s1
    (s2, b :: bs)

/-- Model of `get_chunk`: return the stored chunk if present; otherwise, if
the full data is present, regenerate all chunks, persist every one via
`store_chunk` (each its own batch), and return the chunk at `index`.  A
non-chunk value under a chunk key cannot arise because the two key spaces are
disjoint. -/
def get_chunk (cfg : PruningConfig) (s : AvState) (now : Nat)
    (candidate_hash : CandidateHash) (index : Nat) :
    Option ErasureChunk × AvState × List (List DBOp) :=
  match getAssoc s.dataCol (erasure_chunk_key candidate_hash index) with
  | some (.chunkVal c) => (some c, s, [])
  | _ =>
    match getAssoc s.dataCol (available_data_key candidate_hash) with
    | some (.availVal d) =>
      let chunks := get_chunks d.data d.n_validators
      let desired_chunk := chunks.get? index
      let (s', bs) := store_chunks_loop cfg now candidate_hash d.n_validators
        d.data.validation_data.block_number chunks s
      (desired_chunk, s', bs)
    | _ => (none, s, [])

/-- Outcome of a typed read at the byte level. -/
inductive QueryOutcome (D : Type)
  | found (d : D)
  | absent
  | panicked
deriving DecidableEq

/-- Model of `query_inner` at the byte level.  `raw` is the result of
`db.get(column, key)`; `decode` is the SCALE decoder of the expected type.
On `Ok(Some(raw))` the source decodes with
`.expect("all stored data serialized correctly; qed")`, which panics if
decoding fails; on `Ok(None)` it returns `None`; on `Err(e)` it logs a
warning and returns `None`. -/
def query_inner (raw : Except Unit (Option (List Nat))) (decode : List Nat → Option D) :
    QueryOutcome D :=
  match raw with
  | .ok (some bytes) =>
    match decode bytes with
    | some v => .found v
    | none => .panicked
  | .ok none => .absent
  | .error _ => .absent

/-- Failure cases of `get_block_number`. -/
inductive GbnErr
  | canceled
  | chainApi
deriving DecidableEq

/-- Model of `get_block_number`: `rx` is the one-shot reception result, a
`Result<Result<Option<BlockNumber>, ChainApiError>, Canceled>`.  The source
applies `?` twice — both failures propagate as `Err` — and only a successful
reply with a missing block number maps to `0` via `unwrap_or_default()`. -/
def get_block_number (rx : Except Unit (Except Unit (Option Nat))) : Except GbnErr Nat :=
  match rx with
  | .error _ => .error .canceled
  | .ok (.error _) => .error .chainApi
  | .ok (.ok maybe_number) => .ok (maybe_number.getD 0)

/-- Record-due predicate of `prune_povs`: `record.prune_at <= now`. -/
def povDue (now : Nat) (r : PoVPruningRecord) : Bool :=
  delayLeB r.prune_at (.In now)

/-- Record-due predicate of `prune_chunks`. -/
def chunkDue (now : Nat) (r : ChunkPruningRecord) : Bool :=
  delayLeB r.prune_at (.In now)

/-- What one PoV pruning wave does: it commits exactly one batch; inside that
batch the `DATA`-column deletions are exactly the `available_data_key`s of the
due records (those with `prune_at ≤ At(now)`), and the queue rewrite keeping
exactly the non-due records is part of the same batch; the persisted queue is
the non-due remainder; and no record with `prune_at = Indefinite` is removed. -/
def PrunePovSpec (s : AvState) (now : Nat) : Prop :=
  ∃ B, (prune_povs s now).2 = [B] ∧
    B.filterMap (fun op => match op with | DBOp.delData k => some k | _ => none) =
      ((s.povQueue.getD []).filter (povDue now)).map
        (fun r => available_data_key r.candidate_hash) ∧
    DBOp.putPovQueue (slice_sort cmpPoVRecord
      ((s.povQueue.getD []).filter (fun r => !povDue now r))) ∈ B ∧
    (prune_povs s now).1.povQueue = some (slice_sort cmpPoVRecord
      ((s.povQueue.getD []).filter (fun r => !povDue now r))) ∧
    ∀ r ∈ s.povQueue.getD [], r.prune_at = .Indefinite →
      r ∈ (s.povQueue.getD []).filter (fun r => !povDue now r)

/-- What one chunk pruning wave does, analogously to `PrunePovSpec` with
`erasure_chunk_key` deletions. -/
def PruneChunkSpec (s : AvState) (now : Nat) : Prop :=
  ∃ B, (prune_chunks s now).2 = [B] ∧
    B.filterMap (fun op => match op with | DBOp.delData k => some k | _ => none) =
      ((s.chunkQueue.getD []).filter (chunkDue now)).map
        (fun r => erasure_chunk_key r.candidate_hash r.chunk_index) ∧
    DBOp.putChunkQueue (slice_sort cmpChunkRecord
      ((s.chunkQueue.getD []).filter (fun r => !chunkDue now r))) ∈ B ∧
    (prune_chunks s now).1.chunkQueue = some (slice_sort cmpChunkRecord
      ((s.chunkQueue.getD []).filter (fun r => !chunkDue now r))) ∧
    ∀ r ∈ s.chunkQueue.getD [], r.prune_at = .Indefinite →
      r ∈ (s.chunkQueue.getD []).filter (fun r => !chunkDue now r)

/-- Batch committed by one PoV pruning wave, written with `takeWhile` and
`dropWhile` in place of the source's counted `take`/`drain`. -/
def povPruneOps (s : AvState) (now : Nat) : List DBOp :=
  ((s.povQueue.getD []).takeWhile (povDue now)).map
    (fun r => DBOp.delData (available_data_key r.candidate_hash)) ++
  [DBOp.putPovQueue
    (slice_sort cmpPoVRecord ((s.povQueue.getD []).dropWhile (povDue now)))] ++
  (match nextPovCacheOf
      (slice_sort cmpPoVRecord ((s.povQueue.getD []).dropWhile (povDue now))) with
   | some t => [DBOp.putNextPov t]
   | none => [DBOp.delNextPov])

/-- Batch committed by one chunk pruning wave. -/
def chunkPruneOps (s : AvState) (now : Nat) : List DBOp :=
  ((s.chunkQueue.getD []).takeWhile (chunkDue now)).map
    (fun r => DBOp.delData (erasure_chunk_key r.candidate_hash r.chunk_index)) ++
  [DBOp.putChunkQueue
    (slice_sort cmpChunkRecord ((s.chunkQueue.getD []).dropWhile (chunkDue now)))] ++
  (match nextChunkCacheOf
      (slice_sort cmpChunkRecord ((s.chunkQueue.getD []).dropWhile (chunkDue now))) with
   | some t => [DBOp.putNextChunk t]
   | none => [DBOp.delNextChunk])

/-- Invariant (3) of the spec for the PoV side: the cached next-wakeup equals
the timestamp of the queue head when that head has `prune_at = In(t)`, and is
absent otherwise. -/
def cacheAgreesPov (s : AvState) : Prop :=
  s.nextPovPruning = nextPovCacheOf (s.povQueue.getD [])

/-- What `store_available_data` with `maybe_validator_index = Some(i)`
actually commits: two batches — the chunk-side batch first (containing the
erasure-chunk write and no full-data write), then the PoV-side batch
(containing the full-data write and no chunk write). -/
def StoreSplitSpec (cfg : PruningConfig) (s : AvState) (now : Nat)
    (h : CandidateHash) (i n : Nat) (d : AvailableData) : Prop :=
  ∃ s' B1 B2, store_available_data cfg s now h (some i) n d = some (s', [B1, B2]) ∧
    (∃ v, DBOp.putData (erasure_chunk_key h i) v ∈ B1) ∧
    (∃ v, DBOp.putData (available_data_key h) v ∈ B2) ∧
    (∀ v, DBOp.putData (available_data_key h) v ∉ B1) ∧
    (∀ v, DBOp.putData (erasure_chunk_key h i) v ∉ B2)

/-- What `get_chunk` does on a chunk miss with the full data present: every
chunk carries its position as `index`, the requested position is returned,
and the regeneration loop commits one `store_chunk` batch per position `j`,
writing under `erasure_chunk_key(h, j)`. -/
def RegenSpec (cfg : PruningConfig) (s : AvState) (now : Nat)
    (h : CandidateHash) (i : Nat) (d : StoredAvailableData) : Prop :=
  (∀ j c, (get_chunks d.data d.n_validators).get? j = some c → c.index = j) ∧
  ∃ res s' bs, get_chunk cfg s now h i = (res, s', bs) ∧
    res = (get_chunks d.data d.n_validators).get? i ∧
    bs.length = d.n_validators ∧
    ∀ j, j < d.n_validators → ∃ v, DBOp.putData (erasure_chunk_key h j) v ∈ bs.getD j []

/-- Concrete 32-byte hash used by witnesses and counterexamples. -/
def testHash (k : Nat) : CandidateHash :=
  ⟨List.replicate 32 k, List.length_replicate 32 k⟩

/-- Concrete pruning configuration used by witnesses and counterexamples. -/
def testCfg : PruningConfig := ⟨10, 100, 101⟩

/-- Concrete available data used by witnesses and counterexamples. -/
def testData : AvailableData := ⟨[9], ⟨7⟩⟩

/-- Store state whose PoV queue already has a record for `testHash 1`. -/
def dupState : AvState :=
  ⟨[], some [⟨testHash 1, 1, .Stored, .In 10⟩], none, some 10, none⟩

/-- Store state whose PoV queue head is due at 5 and whose cache agrees. -/
def cacheState : AvState :=
  ⟨[], some [⟨testHash 1, 1, .Stored, .In 5⟩], none, some 5, none⟩

/-- Empty store state. -/
def emptyState : AvState := ⟨[], none, none, none, none⟩

/-- Store state with sorted pruning queues (one due record, one live record,
one indefinite record on the PoV side). -/
def sortedState : AvState :=
  ⟨[],
   some [⟨testHash 1, 1, .Stored, .In 1⟩, ⟨testHash 2, 2, .Stored, .In 100⟩,
         ⟨testHash 3, 3, .Included, .Indefinite⟩],
   some [⟨testHash 1, 1, .Stored, 0, .In 1⟩, ⟨testHash 3, 3, .Included, 1, .Indefinite⟩],
   some 1, some 1⟩

/-- Store state holding full data for `testHash 5` and no chunks. -/
def regenState : AvState :=
  ⟨[(available_data_key (testHash 5), .availVal ⟨testData, 3⟩)], none, none, none, none⟩

instance (s : AvState) : Decidable (cacheAgreesPov s) := by
  unfold cacheAgreesPov
  infer_instance

/-- Batch committed by one `store_chunk` call, spelled out. -/
def storeChunkBatch (cfg : PruningConfig) (s : AvState) (now : Nat)
    (h : CandidateHash) (c : ErasureChunk) (bn : Nat) : List DBOp :=
  [DBOp.putNextChunk (now + cfg.keep_stored_block_for),
   DBOp.putData (erasure_chunk_key h c.index) (.chunkVal c),
   DBOp.putChunkQueue (insertAt
     (match binary_search
         (fun probe => cmpChunkRecord probe
           ⟨h, bn, .Stored, c.index, .In (now + cfg.keep_stored_block_for)⟩)
         ⟨h, bn, .Stored, c.index, .In (now + cfg.keep_stored_block_for)⟩
         (s.chunkQueue.getD []) with
      | .ok idx => idx
      | .error idx => idx)
     ⟨h, bn, .Stored, c.index, .In (now + cfg.keep_stored_block_for)⟩
     (s.chunkQueue.getD []))]

/-- PoV-side batch committed by `store_available_data`, spelled out;
`s1` is the state after the optional `store_chunk` call. -/
def storePovBatch (cfg : PruningConfig) (s1 : AvState) (now : Nat)
    (h : CandidateHash) (n : Nat) (d : AvailableData) : List DBOp :=
  [DBOp.putNextPov (now + cfg.keep_stored_block_for),
   DBOp.putData (available_data_key h) (.availVal ⟨d, n⟩),
   DBOp.putPovQueue (insertAt
     (match binary_search
         (fun probe => cmpPoVRecord probe
           ⟨h, d.validation_data.block_number, .Stored,
            .In (now + cfg.keep_stored_block_for)⟩)
         ⟨h, d.validation_data.block_number, .Stored,
          .In (now + cfg.keep_stored_block_for)⟩
         (s1.povQueue.getD []) with
      | .ok idx => idx
      | .error idx => idx)
     ⟨h, d.validation_data.block_number, .Stored,
      .In (now + cfg.keep_stored_block_for)⟩
     (s1.povQueue.getD []))]

section SortLemmas

variable {α : Type*} {cmp : α → α → Ordering}

theorem sortInsert_perm (cmp : α → α → Ordering) (x : α) :
    ∀ acc : List α, (sortInsert cmp x acc).Perm (x :: acc)
  | [] => by simp [sortInsert]
  | p :: rest => by
    unfold sortInsert
    split
    · exact ((sortInsert_perm cmp x rest).cons p).trans (List.Perm.swap x p rest)
    · exact List.Perm.refl _

theorem foldl_sortInsert_perm (cmp : α → α → Ordering) :
    ∀ (l acc : List α), (l.foldl (fun acc x => sortInsert cmp x acc) acc).Perm (l ++ acc)
  | [], acc => by simp
  | x :: rest, acc => by
    simp only [List.foldl_cons, List.cons_append]
    exact (foldl_sortInsert_perm cmp rest (sortInsert cmp x acc)).trans
      (((sortInsert_perm cmp x acc).append_left rest).trans List.perm_middle)

theorem slice_sort_perm (cmp : α → α → Ordering) (l : List α) :
    (slice_sort cmp l).Perm l := by
  unfold slice_sort
  exact (List.reverse_perm _).trans (by simpa using foldl_sortInsert_perm cmp l [])

theorem sortInsert_head (cmp : α → α → Ordering) (x : α) (acc : List α) :
    (sortInsert cmp x acc).head? =
      match acc with
      | [] => some x
      | p :: _ => if cmp x p = .lt then some p else some x := by
  cases acc <;> simp [sortInsert] <;> split <;> simp

theorem sortInsert_chain
    (hasym : ∀ a b, cmp a b = .lt → cmp b a ≠ .lt) (x : α) :
    ∀ acc : List α, acc.Chain' (fun u v => cmp u v ≠ .lt) →
      (sortInsert cmp x acc).Chain' (fun u v => cmp u v ≠ .lt)
  | [], _ => List.chain'_singleton x
  | p :: rest, h => by
    unfold sortInsert
    split
    · rename_i hlt
      rw [List.chain'_cons']
      refine ⟨?_, sortInsert_chain hasym x rest (h.tail)⟩
      intro y hy
      rw [sortInsert_head] at hy
      cases rest with
      | nil =>
        simp at hy
        subst hy
        exact hasym x p hlt
      | cons q rest' =>
        simp only at hy
        split at hy
        · simp at hy
          subst hy
          exact (List.chain'_cons.mp h).1
        · simp at hy
          subst hy
          exact hasym x p hlt
    · rename_i hnlt
      exact List.chain'_cons.mpr ⟨hnlt, h⟩

theorem foldl_sortInsert_chain
    (hasym : ∀ a b, cmp a b = .lt → cmp b a ≠ .lt) :
    ∀ (l acc : List α), acc.Chain' (fun u v => cmp u v ≠ .lt) →
      (l.foldl (fun acc x => sortInsert cmp x acc) acc).Chain' (fun u v => cmp u v ≠ .lt)
  | [], _, h => h
  | x :: rest, acc, h => by
    simp only [List.foldl_cons]
    exact foldl_sortInsert_chain hasym rest _ (sortInsert_chain hasym x acc h)

theorem slice_sort_chain
    (hasym : ∀ a b, cmp a b = .lt → cmp b a ≠ .lt) (l : List α) :
    (slice_sort cmp l).Chain' (fun a b => cmp b a ≠ .lt) := by
  unfold slice_sort
  rw [List.chain'_reverse]
  exact foldl_sortInsert_chain hasym l [] List.chain'_nil

theorem foldl_sortInsert_of_chain :
    ∀ (l acc : List α), l.Chain' (fun a b => cmp b a ≠ .lt) →
      (∀ x ∈ l.head?, ∀ p ∈ acc.head?, cmp x p ≠ .lt) →
      l.foldl (fun acc x => sortInsert cmp x acc) acc = l.reverse ++ acc
  | [], acc, _, _ => by simp
  | x :: rest, acc, hch, hhd => by
    have hins : sortInsert cmp x acc = x :: acc := by
      cases acc with
      | nil => rfl
      | cons p acc' =>
        have : cmp x p ≠ .lt := hhd x (by simp) p (by simp)
        simp [sortInsert, this]
    simp only [List.foldl_cons, hins]
    rw [foldl_sortInsert_of_chain rest (x :: acc) hch.tail ?_]
    · simp
    · intro y hy p hp
      simp at hp
      subst hp
      cases rest with
      | nil => simp at hy
      | cons z rest' =>
        simp at hy
        subst hy
        exact (List.chain'_cons.mp hch).1

theorem slice_sort_of_chain {l : List α}
    (h : l.Chain' (fun a b => cmp b a ≠ .lt)) : slice_sort cmp l = l := by
  unfold slice_sort
  rw [foldl_sortInsert_of_chain l [] h (by simp)]
  simp

theorem slice_sort_idem
    (hasym : ∀ a b, cmp a b = .lt → cmp b a ≠ .lt) (l : List α) :
    slice_sort cmp (slice_sort cmp l) = slice_sort cmp l :=
  slice_sort_of_chain (slice_sort_chain hasym l)

end SortLemmas

theorem cmpDelay_lt_asymm {a b : PruningDelay} (h : cmpDelay a b = .lt) :
    cmpDelay b a ≠ .lt := by
  cases a <;> cases b <;> simp_all [cmpDelay] <;> omega

theorem cmpPoVRecord_asymm (a b : PoVPruningRecord) (h : cmpPoVRecord a b = .lt) :
    cmpPoVRecord b a ≠ .lt := by
  unfold cmpPoVRecord at *
  split at h
  · simp at h
  · rename_i hne
    rw [if_neg (fun hh => hne hh.symm)]
    exact cmpDelay_lt_asymm h

theorem cmpChunkRecord_asymm (a b : ChunkPruningRecord) (h : cmpChunkRecord a b = .lt) :
    cmpChunkRecord b a ≠ .lt := by
  unfold cmpChunkRecord at *
  split at h
  · simp at h
  · rename_i hne
    rw [if_neg (fun hh => hne hh.symm)]
    exact cmpDelay_lt_asymm h

theorem activatePov_idem (I : List CandidateHash) (r : PoVPruningRecord) :
    activatePovRecord I (activatePovRecord I r) = activatePovRecord I r := by
  unfold activatePovRecord
  by_cases h : r.candidate_hash ∈ I <;> simp [h]

theorem activateChunk_idem (I : List CandidateHash) (r : ChunkPruningRecord) :
    activateChunkRecord I (activateChunkRecord I r) = activateChunkRecord I r := by
  unfold activateChunkRecord
  by_cases h : r.candidate_hash ∈ I <;> simp [h]

theorem sorted_map_activatePov_fix (I : List CandidateHash) (l : List PoVPruningRecord) :
    (slice_sort cmpPoVRecord (l.map (activatePovRecord I))).map (activatePovRecord I) =
      slice_sort cmpPoVRecord (l.map (activatePovRecord I)) := by
  have hfix : ∀ y ∈ slice_sort cmpPoVRecord (l.map (activatePovRecord I)),
      activatePovRecord I y = y := by
    intro y hy
    have hmem := (slice_sort_perm cmpPoVRecord (l.map (activatePovRecord I))).mem_iff.mp hy
    simp only [List.mem_map] at hmem
    obtain ⟨z, _, rfl⟩ := hmem
    exact activatePov_idem I z
  calc (slice_sort cmpPoVRecord (l.map (activatePovRecord I))).map (activatePovRecord I)
      = (slice_sort cmpPoVRecord (l.map (activatePovRecord I))).map id :=
        List.map_congr_left hfix
    _ = _ := List.map_id _

theorem sorted_map_activateChunk_fix (I : List CandidateHash) (l : List ChunkPruningRecord) :
    (slice_sort cmpChunkRecord (l.map (activateChunkRecord I))).map (activateChunkRecord I) =
      slice_sort cmpChunkRecord (l.map (activateChunkRecord I)) := by
  have hfix : ∀ y ∈ slice_sort cmpChunkRecord (l.map (activateChunkRecord I)),
      activateChunkRecord I y = y := by
    intro y hy
    have hmem := (slice_sort_perm cmpChunkRecord (l.map (activateChunkRecord I))).mem_iff.mp hy
    simp only [List.mem_map] at hmem
    obtain ⟨z, _, rfl⟩ := hmem
    exact activateChunk_idem I z
  calc (slice_sort cmpChunkRecord (l.map (activateChunkRecord I))).map (activateChunkRecord I)
      = (slice_sort cmpChunkRecord (l.map (activateChunkRecord I))).map id :=
        List.map_congr_left hfix
    _ = _ := List.map_id _

theorem put_pov_pruning_fst (s : AvState) (q : List PoVPruningRecord) :
    (put_pov_pruning [] s q).1 =
      { s with povQueue := some (slice_sort cmpPoVRecord q),
               nextPovPruning := nextPovCacheOf (slice_sort cmpPoVRecord q) } := by
  unfold put_pov_pruning
  cases h : nextPovCacheOf (slice_sort cmpPoVRecord q) <;>
    simp [h, applyBatch, applyOp]

theorem put_chunk_pruning_fst (s : AvState) (q : List ChunkPruningRecord) :
    (put_chunk_pruning [] s q).1 =
      { s with chunkQueue := some (slice_sort cmpChunkRecord q),
               nextChunkPruning := nextChunkCacheOf (slice_sort cmpChunkRecord q) } := by
  unfold put_chunk_pruning
  cases h : nextChunkCacheOf (slice_sort cmpChunkRecord q) <;>
    simp [h, applyBatch, applyOp]

theorem process_block_activated_fst (s : AvState) (included : List CandidateHash) :
    (process_block_activated s included).1 =
      (match s.povQueue with
        | some q =>
          { s with
            povQueue := some (slice_sort cmpPoVRecord (q.map (activatePovRecord included))),
            nextPovPruning :=
              nextPovCacheOf (slice_sort cmpPoVRecord (q.map (activatePovRecord included))),
            chunkQueue :=
              match s.chunkQueue with
              | some c => some (slice_sort cmpChunkRecord (c.map (activateChunkRecord included)))
              | none => s.chunkQueue
            nextChunkPruning :=
              match s.chunkQueue with
              | some c =>
                nextChunkCacheOf (slice_sort cmpChunkRecord (c.map (activateChunkRecord included)))
              | none => s.nextChunkPruning }
        | none =>
          match s.chunkQueue with
          | some c =>
            { s with
              chunkQueue := some (slice_sort cmpChunkRecord (c.map (activateChunkRecord included)))
              nextChunkPruning :=
                nextChunkCacheOf
                  (slice_sort cmpChunkRecord (c.map (activateChunkRecord included))) }
          | none => s) := by
  unfold process_block_activated
  cases hp : s.povQueue with
  | none =>
    simp only
    cases hc : s.chunkQueue with
    | none => simp [hc]
    | some c =>
      simp only [hc, put_chunk_pruning_fst,
        slice_sort_idem cmpChunkRecord_asymm, hp]
  | some q =>
    simp only [put_pov_pruning_fst, slice_sort_idem cmpPoVRecord_asymm]
    cases hc : s.chunkQueue with
    | none => simp
    | some c =>
      simp only [put_chunk_pruning_fst, slice_sort_idem cmpChunkRecord_asymm]

/-- C8: the block-activation transition is idempotent: applying it twice with
the same included set yields the same store state (in particular the same PoV
and chunk pruning queues) as applying it once. -/
theorem C8_block_activation_idempotent (s : AvState) (included : List CandidateHash) :
    (process_block_activated (process_block_activated s included).1 included).1 =
      (process_block_activated s included).1 := by
  rw [process_block_activated_fst s included]
  rw [process_block_activated_fst]
  cases hp : s.povQueue with
  | some q =>
    cases hc : s.chunkQueue with
    | some c =>
      simp only [sorted_map_activatePov_fix, sorted_map_activateChunk_fix,
        slice_sort_idem cmpPoVRecord_asymm, slice_sort_idem cmpChunkRecord_asymm]
    | none =>
      simp only [sorted_map_activatePov_fix, slice_sort_idem cmpPoVRecord_asymm, hc]
  | none =>
    cases hc : s.chunkQueue with
    | some c =>
      simp only [hp, sorted_map_activateChunk_fix, slice_sort_idem cmpChunkRecord_asymm]
    | none =>
      simp only [hp, hc]

theorem delayLeB_trans {a b c : PruningDelay}
    (hab : delayLeB a b = true) (hbc : delayLeB b c = true) : delayLeB a c = true := by
  cases a <;> cases b <;> cases c <;>
    simp_all [delayLeB, cmpDelay] <;> split_ifs at * <;> simp_all <;> omega

theorem takeWhile_eq_filter_of_sorted {α : Type*} {le : α → α → Bool} {p : α → Bool}
    (down : ∀ a b, le a b = true → p b = true → p a = true) :
    ∀ l : List α, l.Pairwise (fun a b => le a b = true) →
      l.takeWhile p = l.filter p ∧ l.dropWhile p = l.filter (fun x => !p x)
  | [], _ => by simp
  | x :: rest, h => by
    have hrest := takeWhile_eq_filter_of_sorted down rest (List.Pairwise.sublist (List.sublist_cons_self x rest) h)
    cases hx : p x with
    | true =>
      simp only [List.takeWhile_cons, List.dropWhile_cons, hx, List.filter_cons]
      simp [hrest.1, hrest.2]
    | false =>
      have hall : ∀ y ∈ rest, p y = false := by
        intro y hy
        cases hpy : p y with
        | false => rfl
        | true =>
          have hle : le x y = true := (List.pairwise_cons.mp h).1 y hy
          rw [down x y hle hpy] at hx
          cases hx
      have hfilter : rest.filter p = [] := by
        rw [List.filter_eq_nil_iff]
        intro y hy
        simp [hall y hy]
      have hfilter' : rest.filter (fun x => !p x) = rest := by
        rw [List.filter_eq_self]
        intro y hy
        simp [hall y hy]
      simp [List.takeWhile_cons, List.dropWhile_cons, hx, List.filter_cons, hfilter, hfilter']

theorem take_takeWhile_length {α : Type*} (p : α → Bool) :
    ∀ l : List α, l.take (l.takeWhile p).length = l.takeWhile p
  | [] => by simp
  | x :: rest => by
    cases hx : p x with
    | true => simp [List.takeWhile_cons, hx, take_takeWhile_length p rest]
    | false => simp [List.takeWhile_cons, hx]

theorem drop_takeWhile_length {α : Type*} (p : α → Bool) :
    ∀ l : List α, l.drop (l.takeWhile p).length = l.dropWhile p
  | [] => by simp
  | x :: rest => by
    cases hx : p x with
    | true => simp [List.takeWhile_cons, List.dropWhile_cons, hx, drop_takeWhile_length p rest]
    | false => simp [List.takeWhile_cons, List.dropWhile_cons, hx]

theorem applyBatch_delData_povQueue (key : α → List Nat) :
    ∀ (rs : List α) (s : AvState),
      (applyBatch s (rs.map (fun r => DBOp.delData (key r)))).povQueue = s.povQueue
  | [], _ => rfl
  | r :: rest, s => by
    simp only [List.map_cons, applyBatch, List.foldl_cons]
    exact applyBatch_delData_povQueue key rest (applyOp s (DBOp.delData (key r)))

theorem applyBatch_delData_chunkQueue (key : α → List Nat) :
    ∀ (rs : List α) (s : AvState),
      (applyBatch s (rs.map (fun r => DBOp.delData (key r)))).chunkQueue = s.chunkQueue
  | [], _ => rfl
  | r :: rest, s => by
    simp only [List.map_cons, applyBatch, List.foldl_cons]
    exact applyBatch_delData_chunkQueue key rest (applyOp s (DBOp.delData (key r)))

theorem prune_povs_eq (s : AvState) (now : Nat) :
    prune_povs s now = (applyBatch s (povPruneOps s now), [povPruneOps s now]) := by
  unfold prune_povs put_pov_pruning povPruneOps povDue
  simp only [take_takeWhile_length, drop_takeWhile_length]

theorem prune_chunks_eq (s : AvState) (now : Nat) :
    prune_chunks s now = (applyBatch s (chunkPruneOps s now), [chunkPruneOps s now]) := by
  unfold prune_chunks put_chunk_pruning chunkPruneOps chunkDue
  simp only [take_takeWhile_length, drop_takeWhile_length]

theorem filterMap_delData {α : Type*} (key : α → List Nat) :
    ∀ l : List α,
      (l.map (fun r => DBOp.delData (key r))).filterMap
        (fun op => match op with | DBOp.delData k => some k | _ => none) = l.map key
  | [] => rfl
  | x :: rest => by
    simp only [List.map_cons, List.filterMap_cons]
    rw [filterMap_delData key rest]

theorem C5_prune_wave (s : AvState) (now : Nat)
    (hpov : (s.povQueue.getD []).Pairwise
      (fun a b => delayLeB a.prune_at b.prune_at = true))
    (hchunk : (s.chunkQueue.getD []).Pairwise
      (fun a b => delayLeB a.prune_at b.prune_at = true)) :
    PrunePovSpec s now ∧ PruneChunkSpec s now := by
  constructor
  · have down : ∀ a b : PoVPruningRecord, delayLeB a.prune_at b.prune_at = true →
        povDue now b = true → povDue now a = true :=
      fun a b hab hb => delayLeB_trans hab hb
    have hTF := takeWhile_eq_filter_of_sorted down (s.povQueue.getD []) hpov
    refine ⟨povPruneOps s now, by rw [prune_povs_eq], ?_, ?_, ?_, ?_⟩
    · unfold povPruneOps
      rw [List.filterMap_append, List.filterMap_append, filterMap_delData]
      have h2 : (([DBOp.putPovQueue
          (slice_sort cmpPoVRecord ((s.povQueue.getD []).dropWhile (povDue now)))]).filterMap
          (fun op => match op with | DBOp.delData k => some k | _ => none)) = [] := rfl
      have h3 : ((match nextPovCacheOf
            (slice_sort cmpPoVRecord ((s.povQueue.getD []).dropWhile (povDue now))) with
          | some t => [DBOp.putNextPov t]
          | none => [DBOp.delNextPov]).filterMap
          (fun op => match op with | DBOp.delData k => some k | _ => none)) = [] := by
        cases nextPovCacheOf
          (slice_sort cmpPoVRecord ((s.povQueue.getD []).dropWhile (povDue now))) <;> rfl
      rw [h2, h3, hTF.1]
      simp
    · unfold povPruneOps
      rw [hTF.2]
      simp
    · rw [prune_povs_eq]
      unfold povPruneOps
      simp only [applyBatch, List.foldl_append]
      rw [hTF.2]
      have h1 : ∀ s' : AvState,
          (List.foldl applyOp s'
            (((s.povQueue.getD []).takeWhile (povDue now)).map
              (fun r => DBOp.delData (available_data_key r.candidate_hash)))).povQueue
            = s'.povQueue :=
        fun s' => applyBatch_delData_povQueue
          (fun r : PoVPruningRecord => available_data_key r.candidate_hash) _ s'
      cases hn : nextPovCacheOf
          (slice_sort cmpPoVRecord
            ((s.povQueue.getD []).filter (fun r => !povDue now r))) <;>
        simp [List.foldl_cons, applyOp, h1]
    · intro r hr hind
      rw [List.mem_filter]
      refine ⟨hr, ?_⟩
      simp [povDue, delayLeB, cmpDelay, hind]
  · have down : ∀ a b : ChunkPruningRecord, delayLeB a.prune_at b.prune_at = true →
        chunkDue now b = true → chunkDue now a = true :=
      fun a b hab hb => delayLeB_trans hab hb
    have hTF := takeWhile_eq_filter_of_sorted down (s.chunkQueue.getD []) hchunk
    refine ⟨chunkPruneOps s now, by rw [prune_chunks_eq], ?_, ?_, ?_, ?_⟩
    · unfold chunkPruneOps
      rw [List.filterMap_append, List.filterMap_append]
      have h1 := filterMap_delData
        (fun r : ChunkPruningRecord => erasure_chunk_key r.candidate_hash r.chunk_index)
        ((s.chunkQueue.getD []).takeWhile (chunkDue now))
      rw [h1]
      have h2 : (([DBOp.putChunkQueue
          (slice_sort cmpChunkRecord ((s.chunkQueue.getD []).dropWhile (chunkDue now)))]).filterMap
          (fun op => match op with | DBOp.delData k => some k | _ => none)) = [] := rfl
      have h3 : ((match nextChunkCacheOf
            (slice_sort cmpChunkRecord ((s.chunkQueue.getD []).dropWhile (chunkDue now))) with
          | some t => [DBOp.putNextChunk t]
          | none => [DBOp.delNextChunk]).filterMap
          (fun op => match op with | DBOp.delData k => some k | _ => none)) = [] := by
        cases nextChunkCacheOf
          (slice_sort cmpChunkRecord ((s.chunkQueue.getD []).dropWhile (chunkDue now))) <;> rfl
      rw [h2, h3, hTF.1]
      simp
    · unfold chunkPruneOps
      rw [hTF.2]
      simp
    · rw [prune_chunks_eq]
      unfold chunkPruneOps
      simp only [applyBatch, List.foldl_append]
      rw [hTF.2]
      have h1 : ∀ s' : AvState,
          (List.foldl applyOp s'
            (((s.chunkQueue.getD []).takeWhile (chunkDue now)).map
              (fun r => DBOp.delData (erasure_chunk_key r.candidate_hash r.chunk_index)))).chunkQueue
            = s'.chunkQueue :=
        fun s' => applyBatch_delData_chunkQueue
          (fun r : ChunkPruningRecord => erasure_chunk_key r.candidate_hash r.chunk_index) _ s'
      cases hn : nextChunkCacheOf
          (slice_sort cmpChunkRecord
            ((s.chunkQueue.getD []).filter (fun r => !chunkDue now r))) <;>
        simp [List.foldl_cons, applyOp, h1]
    · intro r hr hind
      rw [List.mem_filter]
      refine ⟨hr, ?_⟩
      simp [chunkDue, delayLeB, cmpDelay, hind]

theorem available_data_key_length (h : CandidateHash) :
    (available_data_key h).length = 33 := by
  simp [available_data_key, h.property]

theorem erasure_chunk_key_length (h : CandidateHash) (i : Nat) :
    (erasure_chunk_key h i).length = 37 := by
  simp [erasure_chunk_key, encode_u32, h.property]

theorem data_key_ne_chunk_key (h1 h2 : CandidateHash) (i : Nat) :
    available_data_key h1 ≠ erasure_chunk_key h2 i := by
  intro heq
  have := congrArg List.length heq
  rw [available_data_key_length, erasure_chunk_key_length] at this
  omega

/-- C7: the full-data key encoding and the chunk key encoding never coincide
(the encodings have lengths 33 and 37), and both encodings are deterministic
functions of their inputs. -/
theorem C7_keys_disjoint_and_deterministic :
    (∀ (h1 h2 : CandidateHash) (i : Nat),
      available_data_key h1 ≠ erasure_chunk_key h2 i) ∧
    (∀ h1 h2 : CandidateHash, h1 = h2 →
      available_data_key h1 = available_data_key h2) ∧
    (∀ (h1 h2 : CandidateHash) (i1 i2 : Nat), h1 = h2 → i1 = i2 →
      erasure_chunk_key h1 i1 = erasure_chunk_key h2 i2) := by
  refine ⟨data_key_ne_chunk_key, ?_, ?_⟩
  · intro h1 h2 he
    rw [he]
  · intro h1 h2 i1 i2 he hi
    rw [he, hi]

/-- C7 witness: the theorem applied at concrete hashes and index. -/
theorem C7_witness :
    available_data_key (testHash 1) ≠ erasure_chunk_key (testHash 1) 0 ∧
    available_data_key (testHash 1) = available_data_key (testHash 1) ∧
    erasure_chunk_key (testHash 1) 0 = erasure_chunk_key (testHash 1) 0 :=
  ⟨C7_keys_disjoint_and_deterministic.1 (testHash 1) (testHash 1) 0,
   C7_keys_disjoint_and_deterministic.2.1 (testHash 1) (testHash 1) rfl,
   C7_keys_disjoint_and_deterministic.2.2 (testHash 1) (testHash 1) 0 0 rfl rfl⟩

/-- C2 (amended): the typed read helper treats a KV read error and a missing
key as absent, but bytes that fail to decode make it panic (the source's
`.expect("all stored data serialized correctly; qed")`), not return absent. -/
theorem C2_query_inner_behavior {D : Type} (decode : List Nat → Option D) :
    (∀ bytes, query_inner (.ok (some bytes)) decode =
      (match decode bytes with
       | some v => QueryOutcome.found v
       | none => QueryOutcome.panicked)) ∧
    query_inner (.ok none) decode = QueryOutcome.absent ∧
    (∀ e, query_inner (.error e) decode = QueryOutcome.absent) :=
  ⟨fun _ => rfl, rfl, fun _ => rfl⟩

/-- C2 counterexample: on stored bytes that fail to decode, `query_inner`
panics instead of treating the value as absent, refuting the claim that reads
only distinguish decodable-present from absent. -/
theorem C2_counterexample :
    query_inner (.ok (some [1])) (fun _ => (none : Option Nat)) =
      QueryOutcome.panicked ∧
    QueryOutcome.panicked ≠ (QueryOutcome.absent : QueryOutcome Nat) := by
  exact ⟨rfl, by simp⟩

/-- C6 (amended): `get_block_number` returns `0` exactly when the chain-API
request succeeds with a missing result (`Ok(None)`); a chain-API error or a
dropped reply channel propagates as an error to the caller. -/
theorem C6_get_block_number_behavior :
    (∀ maybe_number, get_block_number (.ok (.ok maybe_number)) =
      .ok (maybe_number.getD 0)) ∧
    (∀ e, get_block_number (.ok (.error e)) = .error GbnErr.chainApi) ∧
    (∀ e, get_block_number (.error e) = .error GbnErr.canceled) :=
  ⟨fun _ => rfl, fun _ => rfl, fun _ => rfl⟩

/-- C6 counterexample: on a dropped reply channel `get_block_number` returns
an error, not `0`, refuting the claim that every failure yields `0`. -/
theorem C6_counterexample :
    get_block_number (.error ()) = .error GbnErr.canceled ∧
    (Except.error GbnErr.canceled : Except GbnErr Nat) ≠ .ok 0 := by
  exact ⟨rfl, by simp⟩

theorem enumerate_length {α : Type*} : ∀ (k : Nat) (l : List α),
    (enumerate k l).length = l.length
  | _, [] => rfl
  | k, _ :: rest => by simp [enumerate, enumerate_length (k + 1) rest]

theorem enumerate_get? {α : Type*} : ∀ (l : List α) (k j : Nat),
    (enumerate k l).get? j = (l.get? j).map (fun a => (k + j, a))
  | [], _, _ => by simp [enumerate]
  | a :: rest, k, 0 => by simp [enumerate]
  | a :: rest, k, j + 1 => by
    simp only [enumerate, List.get?_cons_succ]
    rw [enumerate_get? rest (k + 1) j]
    cases rest.get? j <;> simp <;> omega

theorem get_chunks_length (data : AvailableData) (n : Nat) :
    (get_chunks data n).length = n := by
  simp [get_chunks, enumerate_length, obtain_chunks_v1, branchProofs]

theorem get_chunks_index (data : AvailableData) (n : Nat) :
    ∀ j c, (get_chunks data n).get? j = some c → c.index = j := by
  intro j c hjc
  unfold get_chunks at hjc
  rw [List.get?_map, enumerate_get?] at hjc
  cases hz : ((obtain_chunks_v1 n data).zip
      (branchProofs (obtain_chunks_v1 n data))).get? j with
  | none => rw [hz] at hjc; cases hjc
  | some pair =>
    rw [hz] at hjc
    simp at hjc
    rw [← hjc]

theorem store_chunk_eq (cfg : PruningConfig) (s : AvState) (now : Nat)
    (h : CandidateHash) (nv : Nat) (c : ErasureChunk) (bn : Nat) :
    store_chunk cfg s now h nv c bn =
      (applyBatch s (storeChunkBatch cfg s now h c bn),
       storeChunkBatch cfg s now h c bn) := rfl

theorem store_available_data_none_eq (cfg : PruningConfig) (s : AvState) (now : Nat)
    (h : CandidateHash) (n : Nat) (d : AvailableData) :
    store_available_data cfg s now h none n d =
      some (applyBatch s (storePovBatch cfg s now h n d),
            [storePovBatch cfg s now h n d]) := rfl

theorem store_available_data_some_eq (cfg : PruningConfig) (s : AvState) (now : Nat)
    (h : CandidateHash) (i n : Nat) (d : AvailableData) (c : ErasureChunk)
    (hc : (get_chunks d n).get? i = some c) :
    store_available_data cfg s now h (some i) n d =
      some (applyBatch
              (store_chunk cfg s now h n c d.validation_data.block_number).1
              (storePovBatch cfg
                (store_chunk cfg s now h n c d.validation_data.block_number).1
                now h n d),
            [(store_chunk cfg s now h n c d.validation_data.block_number).2,
             storePovBatch cfg
               (store_chunk cfg s now h n c d.validation_data.block_number).1
               now h n d]) := by
  unfold store_available_data
  simp only [hc, store_chunk_eq, PruningDelay.as_duration, storePovBatch]
  rfl

theorem store_available_data_oob (cfg : PruningConfig) (s : AvState) (now : Nat)
    (h : CandidateHash) (i n : Nat) (d : AvailableData)
    (hc : (get_chunks d n).get? i = none) :
    store_available_data cfg s now h (some i) n d = none := by
  unfold store_available_data
  simp only [hc]

/-- C1 (amended): with `maybe_validator_index = None` all writes of
`store_available_data` commit in a single batch, but with `Some(i)` (for
`i < n_validators`) they commit in two batches: the chunk-side batch first —
containing the erasure-chunk write and not the `StoredAvailableData` write —
then the PoV-side batch, so the intermediate state where only the chunk-side
writes are committed is observable. -/
theorem C1_store_available_data_batches (cfg : PruningConfig) (s : AvState)
    (now : Nat) (h : CandidateHash) (n : Nat) (d : AvailableData) :
    ((store_available_data cfg s now h none n d).map (fun p => p.2.length) = some 1) ∧
    (∀ i, i < n → StoreSplitSpec cfg s now h i n d) := by
  constructor
  · rw [store_available_data_none_eq]
    rfl
  · intro i hi
    have hlt : i < (get_chunks d n).length := by rw [get_chunks_length]; exact hi
    have hc : (get_chunks d n).get? i = some ((get_chunks d n).get ⟨i, hlt⟩) :=
      List.get?_eq_get hlt
    have hidx : ((get_chunks d n).get ⟨i, hlt⟩).index = i :=
      get_chunks_index d n i _ hc
    refine ⟨_, _, _, store_available_data_some_eq cfg s now h i n d _ hc, ?_, ?_, ?_, ?_⟩
    · refine ⟨.chunkVal ((get_chunks d n).get ⟨i, hlt⟩), ?_⟩
      rw [store_chunk_eq]
      unfold storeChunkBatch
      rw [hidx]
      simp
    · exact ⟨.availVal ⟨d, n⟩, by unfold storePovBatch; simp⟩
    · intro v hv
      rw [store_chunk_eq] at hv
      unfold storeChunkBatch at hv
      simp at hv
      exact data_key_ne_chunk_key h h _ hv.1
    · intro v hv
      unfold storePovBatch at hv
      simp at hv
      exact data_key_ne_chunk_key h h i hv.1.symm

/-- C1 witness: the two-batch split at a concrete input with `i < n`. -/
theorem C1_witness :
    0 < 2 ∧ StoreSplitSpec testCfg emptyState 40 (testHash 3) 0 2 testData :=
  ⟨by decide,
   (C1_store_available_data_batches testCfg emptyState 40 (testHash 3) 2 testData).2
     0 (by decide)⟩

/-- C1 counterexample: at a concrete input with `Some(0)` the operation
commits two batches, the first containing the erasure-chunk write but not the
`StoredAvailableData` write (which is only in the second batch) — refuting
the claim that all the writes commit in a single atomic batch. -/
theorem C1_counterexample :
    ((store_available_data testCfg emptyState 40 (testHash 3) (some 0) 2 testData).map
      (fun p =>
        (p.2.length,
         (p.2.getD 0 []).any (fun op =>
           match op with
           | DBOp.putData k _ => decide (k = erasure_chunk_key (testHash 3) 0)
           | _ => false),
         (p.2.getD 0 []).any (fun op =>
           match op with
           | DBOp.putData k _ => decide (k = available_data_key (testHash 3))
           | _ => false),
         (p.2.getD 1 []).any (fun op =>
           match op with
           | DBOp.putData k _ => decide (k = available_data_key (testHash 3))
           | _ => false)))) = some (2, true, false, true) := by
  decide

/-- C3: the queue insert of `store_available_data` is not an upsert — with a
record for the same candidate hash already present, the binary-search insert
keeps the old record and the resulting queue holds two records for that
identity, violating the at-most-one-per-identity invariant the insert is
supposed to maintain. -/
theorem C3_duplicate_identity :
    ((store_available_data testCfg dupState 40 (testHash 1) none 3 testData).map
      (fun p =>
        (p.1.povQueue,
         (p.1.povQueue.getD []).countP
           (fun r => decide (r.candidate_hash = testHash 1))))) =
      some (some [⟨testHash 1, 7, .Stored, .In 50⟩, ⟨testHash 1, 1, .Stored, .In 10⟩],
            2) := by
  decide

/-- C4: `store_available_data` writes the next-wakeup cache from the new
record's deadline rather than from the queue head: starting from a state
whose cache agrees with the head (due at 5), storing data for another
candidate at `now = 40` leaves the cache at 50 while the head is still due at
5, breaking the cache/head invariant. -/
theorem C4_cache_head_mismatch :
    cacheAgreesPov cacheState ∧
    ¬ cacheAgreesPov
      (((store_available_data testCfg cacheState 40 (testHash 2) none 3 testData).map
        Prod.fst).getD cacheState) := by
  decide

/-- C9: `store_available_data` with `Some(i)` performs no bounds check of its
own: whenever `i < n_validators` the indexing of the derived chunk vector
succeeds and the operation completes, and whenever `i ≥ n_validators` the
operation panics at the indexing (no guard rejects the index gracefully). -/
theorem C9_no_bounds_guard (cfg : PruningConfig) (s : AvState) (now : Nat)
    (h : CandidateHash) (i n : Nat) (d : AvailableData) :
    (i < n → (store_available_data cfg s now h (some i) n d).isSome) ∧
    (n ≤ i → store_available_data cfg s now h (some i) n d = none) := by
  constructor
  · intro hi
    have hlt : i < (get_chunks d n).length := by rw [get_chunks_length]; exact hi
    rw [store_available_data_some_eq cfg s now h i n d _ (List.get?_eq_get hlt)]
    rfl
  · intro hi
    have hnone : (get_chunks d n).get? i = none := by
      rw [List.get?_eq_none, get_chunks_length]
      exact hi
    exact store_available_data_oob cfg s now h i n d hnone

/-- C9 witness: both sides of the bounds dichotomy at concrete inputs. -/
theorem C9_witness :
    (0 < 2 ∧
      (store_available_data testCfg emptyState 40 (testHash 4) (some 0) 2 testData).isSome) ∧
    (2 ≤ 5 ∧
      store_available_data testCfg emptyState 40 (testHash 4) (some 5) 2 testData = none) :=
  ⟨⟨by decide,
    (C9_no_bounds_guard testCfg emptyState 40 (testHash 4) 0 2 testData).1 (by decide)⟩,
   ⟨by decide,
    (C9_no_bounds_guard testCfg emptyState 40 (testHash 4) 5 2 testData).2 (by decide)⟩⟩

theorem store_chunks_loop_length (cfg : PruningConfig) (now : Nat)
    (h : CandidateHash) (nv bn : Nat) :
    ∀ (cs : List ErasureChunk) (s : AvState),
      (store_chunks_loop cfg now h nv bn cs s).2.length = cs.length
  | [], _ => rfl
  | c :: rest, s => by
    simp only [store_chunks_loop]
    rw [store_chunk_eq]
    simp [store_chunks_loop_length cfg now h nv bn rest]

theorem store_chunks_loop_get (cfg : PruningConfig) (now : Nat)
    (h : CandidateHash) (nv bn : Nat) :
    ∀ (cs : List ErasureChunk) (s : AvState) (j : Nat) (c : ErasureChunk),
      cs.get? j = some c →
      ∃ v, DBOp.putData (erasure_chunk_key h c.index) v ∈
        (store_chunks_loop cfg now h nv bn cs s).2.getD j []
  | [], _, j, c, hj => by cases hj
  | x :: rest, s, 0, c, hj => by
    have hx : x = c := by simpa using hj
    subst hx
    simp only [store_chunks_loop]
    rw [store_chunk_eq]
    refine ⟨.chunkVal x, ?_⟩
    unfold storeChunkBatch
    simp
  | x :: rest, s, j + 1, c, hj => by
    simp only [List.get?_cons_succ] at hj
    simp only [store_chunks_loop]
    rw [store_chunk_eq]
    simpa using store_chunks_loop_get cfg now h nv bn rest
      (applyBatch s (storeChunkBatch cfg s now h x bn)) j c hj

/-- C10: every chunk derived by `get_chunks` carries its position as its
`index`, so `get_chunk`'s regeneration on a miss persists, for each position
`j`, a chunk write under `erasure_chunk_key(candidate_hash, j)` (one
`store_chunk` batch per position), and returns the chunk at the requested
position. -/
theorem C10_chunk_index_and_regeneration (cfg : PruningConfig) (s : AvState)
    (now : Nat) (h : CandidateHash) (i : Nat) (d : StoredAvailableData)
    (hmiss : getAssoc s.dataCol (erasure_chunk_key h i) = none)
    (hdata : getAssoc s.dataCol (available_data_key h) = some (.availVal d)) :
    RegenSpec cfg s now h i d := by
  refine ⟨get_chunks_index d.data d.n_validators, ?_⟩
  rcases hloop : store_chunks_loop cfg now h d.n_validators
    d.data.validation_data.block_number (get_chunks d.data d.n_validators) s with ⟨s2, bs2⟩
  refine ⟨(get_chunks d.data d.n_validators).get? i, s2, bs2, ?_, rfl, ?_, ?_⟩
  · unfold get_chunk
    simp only [hmiss, hdata, hloop]
  · have hlen := store_chunks_loop_length cfg now h d.n_validators
      d.data.validation_data.block_number (get_chunks d.data d.n_validators) s
    rw [hloop] at hlen
    simpa [get_chunks_length] using hlen
  · intro j hj
    have hlt : j < (get_chunks d.data d.n_validators).length := by
      rw [get_chunks_length]; exact hj
    have hc : (get_chunks d.data d.n_validators).get? j =
        some ((get_chunks d.data d.n_validators).get ⟨j, hlt⟩) :=
      List.get?_eq_get hlt
    have hidx := get_chunks_index d.data d.n_validators j _ hc
    have hmem := store_chunks_loop_get cfg now h d.n_validators
      d.data.validation_data.block_number (get_chunks d.data d.n_validators) s j _ hc
    rw [hidx, hloop] at hmem
    exact hmem

/-- C10 witness: regeneration at a concrete state storing full data for 3
validators and no chunks. -/
theorem C10_witness :
    getAssoc regenState.dataCol (erasure_chunk_key (testHash 5) 1) = none ∧
    getAssoc regenState.dataCol (available_data_key (testHash 5)) =
      some (.availVal ⟨testData, 3⟩) ∧
    RegenSpec testCfg regenState 40 (testHash 5) 1 ⟨testData, 3⟩ :=
  ⟨by decide, by decide,
   C10_chunk_index_and_regeneration testCfg regenState 40 (testHash 5) 1 ⟨testData, 3⟩
     (by decide) (by decide)⟩

/-- C5 witness: one pruning wave at `now = 50` on a store whose sorted queues
hold due, live, and indefinite records. -/
theorem C5_witness :
    ((sortedState.povQueue.getD []).Pairwise
      (fun a b => delayLeB a.prune_at b.prune_at = true)) ∧
    ((sortedState.chunkQueue.getD []).Pairwise
      (fun a b => delayLeB a.prune_at b.prune_at = true)) ∧
    (PrunePovSpec sortedState 50 ∧ PruneChunkSpec sortedState 50) :=
  ⟨by decide, by decide, C5_prune_wave sortedState 50 (by decide) (by decide)⟩

end AvStore
